import Mathlib

/-!
A shallow embedding of `pptx/shapes.py`: the slide shape tree
(`_ShapeCollection` over an `spTree` markup element), its unmarshaling of
child elements into shape variants, the tree-wide id allocator
(`__next_shape_id`), the name allocators (the composed `basename (id-1)`
names of the add operations, and `__next_ph_name` with its collision loop),
the four add operations, and layout-placeholder cloning.

The markup tree is modelled as a tagged element tree.  A shape-identifying
`p:cNvPr` element carries the `id` and `name` attributes; the `//p:cNvPr`
xpath scans of the source become tree-wide collections of those attributes.
Collaborators that live outside `pptx/shapes.py` (the `pptx.oxml` node
builders, the `_Placeholder` accessors, `slide_ph_basenames`) are modelled
from the spec where noted.
-/

namespace PptxShapes

/-- The element tag names the source dispatches on (`qn('p:sp')` etc.).
`unknown` stands for any other tag found in a document. -/
inductive Tag where
  | nvGrpSpPr
  | grpSpPr
  | extLst
  | sp
  | pic
  | grpSp
  | graphicFrame
  | cxnSp
  | contentPart
  | cNvPr
  | unknown : Nat → Tag
  deriving DecidableEq

/-- Modelled from the spec: the placeholder semantic types (`PH_TYPE_*` of
`pptx.spec`, outside src/): title, body, date, slide number, footer and the
object-ish kinds the fixed basename table covers. -/
inductive PhType where
  | title
  | body
  | ctrTitle
  | subTitle
  | dt
  | sldNum
  | ftr
  | obj
  | tbl
  | chart
  | pict
  | media
  deriving DecidableEq

/-- Modelled from the spec: placeholder orientation, horizontal or vertical
(`PH_ORIENT_VERT` of `pptx.spec`). -/
inductive Orient where
  | horz
  | vert
  deriving DecidableEq

/-- Modelled from the spec: the Placeholder Overlay, the derived view of a
placeholder shape exposing `type`, `orient`, `sz` (sizing hint, opaque here)
and `idx` (`_Placeholder` of `pptx.placeholder`, outside src/). -/
structure PhProps where
  phType : PhType
  orient : Orient
  sz : Nat
  idx : Nat
  deriving DecidableEq

/-- A markup element: tag, `id` attribute, `name` attribute (both read only
on `p:cNvPr` elements), the has-table flag of a graphic frame
(`CT_GraphicalObjectFrame.has_table`, outside src/, modelled from the spec as
a flag), the placeholder data of a shape element (`<p:ph>` attributes, read
through the spec-modelled Placeholder Overlay), and the ordered children. -/
inductive Elm where
  | mk : Tag → Nat → String → Bool → Option PhProps → List Elm → Elm

def Elm.tag : Elm → Tag
  | .mk t _ _ _ _ _ => t

def Elm.idAttr : Elm → Nat
  | .mk _ i _ _ _ _ => i

def Elm.nameAttr : Elm → String
  | .mk _ _ n _ _ _ => n

def Elm.hasTable : Elm → Bool
  | .mk _ _ _ h _ _ => h

def Elm.ph : Elm → Option PhProps
  | .mk _ _ _ _ p _ => p

def Elm.children : Elm → List Elm
  | .mk _ _ _ _ _ cs => cs

mutual

/-- The `//p:cNvPr` scan: every shape-identifying element of the tree, in
document order, as its `(id, name)` attribute pair. -/
def cNvPrs : Elm → List (Nat × String)
  | .mk t i n _ _ cs => (if t = Tag.cNvPr then [(i, n)] else []) ++ cNvPrsOf cs

def cNvPrsOf : List Elm → List (Nat × String)
  | [] => []
  | e :: es => cNvPrs e ++ cNvPrsOf es

end

/-- The ids the `__next_shape_id` xpath collects, tree-wide. -/
def cNvPrIds (e : Elm) : List Nat :=
  (cNvPrs e).map Prod.fst

/-- The names the `__next_ph_name` xpath (`//p:cNvPr/@name`) collects. -/
def cNvPrNames (e : Elm) : List String :=
  (cNvPrs e).map Prod.snd

/-- The gap-filling walk of `__next_shape_id`: `next_id` starts at 1; each
listed id that is not greater than the candidate bumps the candidate. -/
def nextIdLoop : List Nat → Nat → Nat
  | [], next => next
  | i :: is, next => if next < i then next else nextIdLoop is (next + 1)

/-- `_ShapeCollection.__next_shape_id`: collect every `p:cNvPr` id tree-wide,
sort ascending (`ids.sort()`, embedded as the extensionally equal structural
insertion sort), and walk for the first gap, starting from 1. -/
def nextShapeId (spTree : Elm) : Nat :=
  nextIdLoop (List.insertionSort (· ≤ ·) (cNvPrIds spTree)) 1

/-- The decimal rendering of `n`, digit characters via `Nat.digitChar`;
structural (fuel = n bounds the digit count) so that concrete instances
compute.  Embeds the `%d` formatting of the source. -/
def toDecimalAux : Nat → Nat → List Char
  | 0, _ => []
  | _ + 1, 0 => []
  | fuel + 1, n + 1 => toDecimalAux fuel ((n + 1) / 10) ++ [Nat.digitChar ((n + 1) % 10)]

/-- Decimal rendering of a natural number, as Python `%d` renders it. -/
def natDecimal (n : Nat) : String :=
  if n = 0 then "0" else String.mk (toDecimalAux n n)

/-- The `'%s %d' % (basename, numpart)` name format of the source. -/
def composeName (basename : String) (numpart : Nat) : String :=
  basename ++ " " ++ natDecimal numpart

/-- Modelled from the spec: the fixed placeholder type-to-basename table
(`slide_ph_basenames` of `pptx.spec`, outside src/); the spec fixes the body
entry as "Text Placeholder". -/
def slide_ph_basenames : PhType → String
  | .title => "Title"
  | .body => "Text Placeholder"
  | .ctrTitle => "Title"
  | .subTitle => "Subtitle"
  | .dt => "Date Placeholder"
  | .sldNum => "Slide Number Placeholder"
  | .ftr => "Footer Placeholder"
  | .obj => "Content Placeholder"
  | .tbl => "Table Placeholder"
  | .chart => "Chart Placeholder"
  | .pict => "Picture Placeholder"
  | .media => "Media Placeholder"

/-- The basename `__next_ph_name` starts from: the table entry for the type,
prefixed with `"Vertical "` when the orientation is vertical. -/
def phBasename (ph_type : PhType) (orient : Orient) : String :=
  if orient = Orient.vert then "Vertical " ++ slide_ph_basenames ph_type
  else slide_ph_basenames ph_type

/-- Greatest length of a name in the list; only used as a termination
measure for the collision loop. -/
def maxNameLen (names : List String) : Nat :=
  names.foldr (fun s m => max s.length m) 0

theorem len_le_maxNameLen {s : String} {names : List String} (h : s ∈ names) :
    s.length ≤ maxNameLen names := by
  induction names with
  | nil => cases h
  | cons a l ih =>
    simp only [maxNameLen, List.foldr] at *
    rcases List.mem_cons.mp h with rfl | h2
    · exact Nat.le_max_left _ _
    · exact Nat.le_trans (ih h2) (Nat.le_max_right _ _)

theorem toDecimalAux_eq (fuel n : Nat) (h : n ≤ fuel) :
    toDecimalAux fuel n = ((Nat.digits 10 n).map Nat.digitChar).reverse := by
  induction fuel generalizing n with
  | zero =>
    interval_cases n
    simp [toDecimalAux]
  | succ f ih =>
    match n with
    | 0 => simp [toDecimalAux]
    | m + 1 =>
      have hd : (m + 1) / 10 ≤ f := by
        have := Nat.div_lt_self (Nat.succ_pos m) (by norm_num : 1 < 10)
        omega
      rw [toDecimalAux, ih ((m + 1) / 10) hd,
        Nat.digits_def' (by norm_num : (1:Nat) < 10) (Nat.succ_pos m)]
      simp

theorem natDecimal_eq_digits {n : Nat} (h : n ≠ 0) :
    natDecimal n = String.mk (((Nat.digits 10 n).map Nat.digitChar).reverse) := by
  rw [natDecimal, if_neg h, toDecimalAux_eq n n (Nat.le_refl n)]

theorem natDecimal_lt_ten_pow (n : Nat) : n < 10 ^ (natDecimal n).length := by
  by_cases h : n = 0
  · simp [h, natDecimal]
  · rw [natDecimal_eq_digits h]
    have h1 : (String.mk (((Nat.digits 10 n).map Nat.digitChar).reverse)).length
        = (Nat.digits 10 n).length := by
      simp [String.length]
    rw [h1]
    exact Nat.lt_base_pow_length_digits (by norm_num)

/-- The collision loop of `__next_ph_name`: while the composed name occurs in
the collected names, bump the numeric part.  It terminates because a name in
the list bounds the length of the decimal part, hence the numeric part. -/
def phNameLoop (basename : String) (names : List String) (numpart : Nat) : String :=
  if h : composeName basename numpart ∈ names then
    phNameLoop basename names (numpart + 1)
  else
    composeName basename numpart
termination_by 10 ^ maxNameLen names - numpart
decreasing_by
  have hlen : (composeName basename numpart).length ≤ maxNameLen names :=
    len_le_maxNameLen h
  have h2 : (natDecimal numpart).length ≤ (composeName basename numpart).length := by
    simp only [composeName, String.length_append]
    omega
  have h3 : numpart < 10 ^ maxNameLen names :=
    Nat.lt_of_lt_of_le (natDecimal_lt_ten_pow numpart)
      (Nat.pow_le_pow_right (by norm_num) (Nat.le_trans h2 hlen))
  omega

/-- `_ShapeCollection.__next_ph_name`: basename from the fixed table (with
the vertical prefix), numeric part starting at `id - 1`, incremented against
the tree-wide name list until the composed name is free. -/
def nextPhName (spTree : Elm) (ph_type : PhType) (id : Nat) (orient : Orient) : String :=
  phNameLoop (phBasename ph_type orient) (cNvPrNames spTree) (id - 1)

/-- The shape variants the unmarshal dispatch produces: `_Shape` (autoshape
wrapper), `_Picture`, `_Table`, a recursive `_ShapeCollection` for a group,
and the generic `_BaseShape`. -/
inductive Shape where
  | shape : Elm → Shape
  | picture : Elm → Shape
  | table : Elm → Shape
  | group : Elm → List Shape → Shape
  | base : Elm → Shape

/-- The element a shape wraps. -/
def Shape.elmOf : Shape → Elm
  | .shape e => e
  | .picture e => e
  | .table e => e
  | .group e _ => e
  | .base e => e

/-- The single defined error kind: the `ValueError` raised on a
`p:contentPart` child (the spec's UnsupportedShapeKind). -/
inductive UnmarshalError where
  | unsupportedShapeKind
  deriving DecidableEq

/-- The tags `__init__` skips without producing a shape. -/
def isSkipTag (t : Tag) : Bool :=
  t = Tag.nvGrpSpPr || t = Tag.grpSpPr || t = Tag.extLst

mutual

/-- One step of the unmarshal dispatch of `_ShapeCollection.__init__`,
classifying one child element by its tag: the structural tags are skipped
(no shape), `p:sp` wraps as `_Shape`, `p:pic` as `_Picture`, `p:grpSp` as a
recursive `_ShapeCollection`, `p:graphicFrame` as `_Table` exactly when it
has a table graphic and `_BaseShape` otherwise, `p:contentPart` raises, and
every other tag falls back to `_BaseShape`. -/
def unmarshalOne : Elm → Except UnmarshalError (Option Shape)
  | Elm.mk t i n h p cs =>
    if isSkipTag t then Except.ok none
    else if t = Tag.sp then Except.ok (some (Shape.shape (Elm.mk t i n h p cs)))
    else if t = Tag.pic then Except.ok (some (Shape.picture (Elm.mk t i n h p cs)))
    else if t = Tag.grpSp then
      Except.map (fun sub => some (Shape.group (Elm.mk t i n h p cs) sub)) (unmarshalShapes cs)
    else if t = Tag.graphicFrame then
      if h then Except.ok (some (Shape.table (Elm.mk t i n h p cs)))
      else Except.ok (some (Shape.base (Elm.mk t i n h p cs)))
    else if t = Tag.contentPart then
      Except.error UnmarshalError.unsupportedShapeKind
    else Except.ok (some (Shape.base (Elm.mk t i n h p cs)))

/-- The unmarshal loop of `_ShapeCollection.__init__` over the children of
the backing element, in document order: classify each child, drop the
skipped ones, collect the produced shapes, and propagate the content-part
failure. -/
def unmarshalShapes : List Elm → Except UnmarshalError (List Shape)
  | [] => Except.ok []
  | e :: es =>
    match unmarshalOne e with
    | Except.error err => Except.error err
    | Except.ok none => unmarshalShapes es
    | Except.ok (some s) => Except.map (fun r => s :: r) (unmarshalShapes es)

end

mutual

/-- Whether classifying this element reaches a `p:contentPart`: it is one
itself, or it is a group shape one of whose children reaches one. -/
def elmHasContentPart : Elm → Bool
  | Elm.mk t _ _ _ _ cs =>
    t = Tag.contentPart || (t = Tag.grpSp && hasContentPart cs)

/-- Whether the unmarshal recursion over these elements reaches a
`p:contentPart` element. -/
def hasContentPart : List Elm → Bool
  | [] => false
  | e :: es => elmHasContentPart e || hasContentPart es

end

/-- The in-memory state of a `_ShapeCollection`: the backing element
(`self.__spTree`) and the wrapped shape sequence (`self.__shapes`). -/
structure Collection where
  spTree : Elm
  shapes : List Shape

/-- Construction of a `_ShapeCollection` from its backing element. -/
def mkCollection (spTree : Elm) : Except UnmarshalError Collection :=
  Except.map (fun shapes => Collection.mk spTree shapes) (unmarshalShapes spTree.children)

/-- Appending a child element to the backing element (`spTree.append(...)`). -/
def Elm.appendChild : Elm → Elm → Elm
  | .mk t i n h p cs, e => .mk t i n h p (cs ++ [e])

/-- A `p:cNvPr` element with the given id and name. -/
def cNvPrElm (id : Nat) (name : String) : Elm :=
  Elm.mk Tag.cNvPr id name false none []

/-- Modelled from the spec: the `CT_Picture.new_pic` node builder
(`pptx.oxml`, outside src/) builds a well-formed `p:pic` element carrying the
given id and name in its `p:cNvPr`; geometry and relationship attributes are
omitted, no claim depends on them. -/
def new_pic (id : Nat) (name : String) : Elm :=
  Elm.mk Tag.pic 0 "" false none [cNvPrElm id name]

/-- Modelled from the spec: `CT_Shape.new_autoshape_sp` builds a `p:sp`
element with the given id and name (geometry preset omitted). -/
def new_autoshape_sp (id : Nat) (name : String) : Elm :=
  Elm.mk Tag.sp 0 "" false none [cNvPrElm id name]

/-- Modelled from the spec: `CT_Shape.new_textbox_sp` builds a `p:sp` element
with the given id and name. -/
def new_textbox_sp (id : Nat) (name : String) : Elm :=
  Elm.mk Tag.sp 0 "" false none [cNvPrElm id name]

/-- Modelled from the spec: `CT_GraphicalObjectFrame.new_table` builds a
`p:graphicFrame` element containing a table graphic (so its has-table flag is
set), with the given id and name; the row/column grid and geometry are
omitted, no claim here depends on them. -/
def new_table (id : Nat) (name : String) : Elm :=
  Elm.mk Tag.graphicFrame 0 "" true none [cNvPrElm id name]

/-- Modelled from the spec: `CT_Shape.new_placeholder_sp` builds a `p:sp`
placeholder element with the given id and name, copying type, orientation,
size and idx into its placeholder data. -/
def new_placeholder_sp (id : Nat) (name : String) (ph_type : PhType) (orient : Orient)
    (sz : Nat) (idx : Nat) : Elm :=
  Elm.mk Tag.sp 0 "" false (some (PhProps.mk ph_type orient sz idx)) [cNvPrElm id name]

/-- `_ShapeCollection.add_picture`: allocate the id, compose the name
`Picture (id-1)`, build the picture node, append it to the backing element
and the wrapped `_Picture` to the sequence, return the new picture.  The
image collaborator (desc, relationship id, scaling) is outside src/ and
contributes nothing to the claims. -/
def Collection.add_picture (c : Collection) : Collection × Shape :=
  let id := nextShapeId c.spTree
  let name := composeName "Picture" (id - 1)
  let picElm := new_pic id name
  (Collection.mk (c.spTree.appendChild picElm) (c.shapes ++ [Shape.picture picElm]),
    Shape.picture picElm)

/-- `_ShapeCollection.add_shape`: the autoshape type is resolved outside
src/ (`_AutoShapeType`); its descriptive basename is taken as the argument.
Name is `basename (id-1)`, the built `p:sp` is appended and wrapped as
`_Shape`. -/
def Collection.add_shape (c : Collection) (basename : String) : Collection × Shape :=
  let id := nextShapeId c.spTree
  let name := composeName basename (id - 1)
  let spElm := new_autoshape_sp id name
  (Collection.mk (c.spTree.appendChild spElm) (c.shapes ++ [Shape.shape spElm]),
    Shape.shape spElm)

/-- `_ShapeCollection.add_table`: name `Table (id-1)`, graphic-frame node,
wrapped as `_Table`. -/
def Collection.add_table (c : Collection) : Collection × Shape :=
  let id := nextShapeId c.spTree
  let name := composeName "Table" (id - 1)
  let frame := new_table id name
  (Collection.mk (c.spTree.appendChild frame) (c.shapes ++ [Shape.table frame]),
    Shape.table frame)

/-- `_ShapeCollection.add_textbox`: name `TextBox (id-1)`, textbox `p:sp`,
wrapped as `_Shape`. -/
def Collection.add_textbox (c : Collection) : Collection × Shape :=
  let id := nextShapeId c.spTree
  let name := composeName "TextBox" (id - 1)
  let spElm := new_textbox_sp id name
  (Collection.mk (c.spTree.appendChild spElm) (c.shapes ++ [Shape.shape spElm]),
    Shape.shape spElm)

/-- `_ShapeCollection.__clone_layout_placeholder`: allocate the id, derive
the name through `__next_ph_name` from the layout placeholder's type and
orientation, build the placeholder `p:sp` copying type, orientation, size
and idx, append and wrap as `_Shape`. -/
def Collection.clone_layout_placeholder (c : Collection) (layout_ph : PhProps) :
    Collection × Shape :=
  let id := nextShapeId c.spTree
  let shapename := nextPhName c.spTree layout_ph.phType id layout_ph.orient
  let spElm := new_placeholder_sp id shapename layout_ph.phType layout_ph.orient
    layout_ph.sz layout_ph.idx
  (Collection.mk (c.spTree.appendChild spElm) (c.shapes ++ [Shape.shape spElm]),
    Shape.shape spElm)

/-- The latent placeholder types never cloned from a layout. -/
def latent_ph_types : List PhType :=
  [PhType.dt, PhType.sldNum, PhType.ftr]

/-- `_ShapeCollection._clone_layout_placeholders`: walk the layout's shapes
in document order; skip non-placeholders and latent types; clone the rest
one by one.  A layout shape's `is_placeholder` and placeholder accessors
read its element (spec-modelled overlay), so the layout collection is taken
as its element list. -/
def Collection.clone_layout_placeholders (c : Collection) : List Elm → Collection
  | [] => c
  | e :: es =>
    match e.ph with
    | none => Collection.clone_layout_placeholders c es
    | some props =>
      if props.phType ∈ latent_ph_types then Collection.clone_layout_placeholders c es
      else Collection.clone_layout_placeholders (c.clone_layout_placeholder props).1 es

/-- Whether a shape is a placeholder (`_BaseShape.is_placeholder`, outside
src/: whether the shape element carries placeholder data). -/
def Shape.isPlaceholder (s : Shape) : Bool :=
  s.elmOf.ph.isSome

/-- The placeholder `idx` of a shape (`_Placeholder.idx`, spec-modelled). -/
def Shape.phIdx (s : Shape) : Nat :=
  ((s.elmOf.ph).map PhProps.idx).getD 0

/-- `_ShapeCollection.placeholders`: the placeholder members, sorted by
`idx` with Python's stable `list.sort` (embedded as the stable structural
insertion sort). -/
def Collection.placeholders (c : Collection) : List Shape :=
  List.insertionSort (fun a b => Shape.phIdx a ≤ Shape.phIdx b)
    (c.shapes.filter Shape.isPlaceholder)

/-- A mutation of the collection: one of the four add operations or a
layout-placeholder cloning pass. -/
inductive Op where
  | add_picture : Op
  | add_shape : String → Op
  | add_table : Op
  | add_textbox : Op
  | clone_layout_placeholders : List Elm → Op

/-- Apply one operation to the collection. -/
def applyOp (c : Collection) : Op → Collection
  | .add_picture => c.add_picture.1
  | .add_shape basename => (c.add_shape basename).1
  | .add_table => c.add_table.1
  | .add_textbox => c.add_textbox.1
  | .clone_layout_placeholders layout => c.clone_layout_placeholders layout

/-- Apply a sequence of operations, left to right. -/
def runOps (c : Collection) : List Op → Collection
  | [] => c
  | op :: ops => runOps (applyOp c op) ops

/-- The basenames a cloning pass over the given layout elements uses: one
per non-latent placeholder, with its vertical prefix applied. -/
def layoutPhBasenames : List Elm → List String
  | [] => []
  | e :: es =>
    (match e.ph with
      | none => []
      | some props =>
        if props.phType ∈ latent_ph_types then []
        else [phBasename props.phType props.orient]) ++ layoutPhBasenames es

/-- The composed-name basenames one operation can use. -/
def opBasenames : Op → List String
  | .add_picture => ["Picture"]
  | .add_shape basename => [basename]
  | .add_table => ["Table"]
  | .add_textbox => ["TextBox"]
  | .clone_layout_placeholders layout => layoutPhBasenames layout

/-- All basenames a sequence of operations can use. -/
def opsBasenames (ops : List Op) : List String :=
  (ops.map opBasenames).flatten

/-- The children of a backing element that unmarshal to shapes (everything
but the skipped structural tags). -/
def qualifying (es : List Elm) : List Elm :=
  es.filter (fun e => !isSkipTag e.tag)

/-- The pairing invariant of a collection: the wrapped shape sequence lists,
in order, exactly the qualifying children of the backing element. -/
def Paired (c : Collection) : Prop :=
  c.shapes.map Shape.elmOf = qualifying c.spTree.children

/-- The placeholder data of the non-latent placeholders among the layout
elements, in document order: exactly what a cloning pass copies. -/
def nonLatentPhs : List Elm → List PhProps
  | [] => []
  | e :: es =>
    (match e.ph with
      | none => []
      | some props =>
        if props.phType ∈ latent_ph_types then [] else [props]) ++ nonLatentPhs es

/-- The name-uniqueness invariant the amended C2 maintains over the tree:
ids are distinct, names are distinct, and every cNvPr pair carries either
one of the original names or the composed name of a basename in `B` with
its own positive id's suffix. -/
def NamesOK (B orig : List String) (t : Elm) : Prop :=
  (cNvPrIds t).Nodup ∧ (cNvPrNames t).Nodup ∧
    ∀ p ∈ cNvPrs t, p.2 ∈ orig ∨ ∃ b ∈ B, 1 ≤ p.1 ∧ p.2 = composeName b (p.1 - 1)

/-! ### Concrete instances used by witnesses and counterexamples -/

/-- The `p:nvGrpSpPr` child of a well-formed group tree, holding the tree's
own `p:cNvPr` (conventionally id 1). -/
def nvGrpSpPrElm (id : Nat) (name : String) : Elm :=
  Elm.mk Tag.nvGrpSpPr 0 "" false none [cNvPrElm id name]

/-- A plain `p:sp` test element with the given `p:cNvPr`. -/
def spTestElm (id : Nat) (name : String) : Elm :=
  Elm.mk Tag.sp 0 "" false none [cNvPrElm id name]

/-- A placeholder `p:sp` test element. -/
def phTestElm (id : Nat) (name : String) (pt : PhType) (o : Orient) (sz idx : Nat) : Elm :=
  Elm.mk Tag.sp 0 "" false (some (PhProps.mk pt o sz idx)) [cNvPrElm id name]

/-- A test tree whose cNvPr ids are 1, 2, 4. -/
def treeIds124 : Elm :=
  Elm.mk Tag.grpSp 0 "" false none
    [nvGrpSpPrElm 1 "", spTestElm 2 "a", spTestElm 4 "b"]

/-- A test tree whose cNvPr ids are 1, 2, 3. -/
def treeIds123 : Elm :=
  Elm.mk Tag.grpSp 0 "" false none
    [nvGrpSpPrElm 1 "", spTestElm 2 "a", spTestElm 3 "b"]

/-- A minimal well-formed tree: just the group's own cNvPr, id 1. -/
def emptyTree : Elm :=
  Elm.mk Tag.grpSp 0 "" false none [nvGrpSpPrElm 1 ""]

/-- The collection over `emptyTree` (it has no shape children). -/
def emptyColl : Collection :=
  Collection.mk emptyTree []

/-- A tree holding one picture shape whose name `"Picture 2"` does not match
its id 2 under the add-name convention (id 2 composes the suffix 1): the
pre-existing-name counterexample input. -/
def cexTree : Elm :=
  Elm.mk Tag.grpSp 0 "" false none
    [nvGrpSpPrElm 1 "",
     Elm.mk Tag.pic 0 "" false none [cNvPrElm 2 "Picture 2"]]

/-- The collection over `cexTree`. -/
def cexColl : Collection :=
  Collection.mk cexTree [Shape.picture (Elm.mk Tag.pic 0 "" false none [cNvPrElm 2 "Picture 2"])]

/-- A tree whose only shape child is a nested group that contains a
content-part element: unmarshal fails on it although none of the tree's own
children is a content-part element. -/
def cexNestedCP : Elm :=
  Elm.mk Tag.grpSp 0 "" false none
    [nvGrpSpPrElm 1 "",
     Elm.mk Tag.grpSp 0 "" false none [Elm.mk Tag.contentPart 0 "" false none []]]

/-- A placeholder shape with the given idx, for the ordering example. -/
def sIdx (k : Nat) : Shape :=
  Shape.shape (phTestElm (k + 2) "p" PhType.body Orient.horz 0 k)

/-- A collection whose placeholders carry idx 3, 1, 2 in document order. -/
def collIdx312 : Collection :=
  Collection.mk emptyTree [sIdx 3, sIdx 1, sIdx 2]

/-- A small layout element list: one body placeholder, one date, one
slide-number, one footer and one non-placeholder shape. -/
def testLayout : List Elm :=
  [phTestElm 2 "Title 1" PhType.title Orient.horz 0 0,
   phTestElm 3 "Date Placeholder 2" PhType.dt Orient.horz 0 10,
   phTestElm 4 "Vertical Text Placeholder 3" PhType.body Orient.vert 0 1,
   phTestElm 5 "Slide Number Placeholder 4" PhType.sldNum Orient.horz 0 11,
   phTestElm 6 "Footer Placeholder 5" PhType.ftr Orient.horz 0 12,
   spTestElm 7 "Freeform 6"]

/-! ### Lemmas about the tree scans -/

theorem cNvPrsOf_append (l1 l2 : List Elm) :
    cNvPrsOf (l1 ++ l2) = cNvPrsOf l1 ++ cNvPrsOf l2 := by
  induction l1 with
  | nil => simp [cNvPrsOf]
  | cons e es ih => simp [cNvPrsOf, ih]

theorem cNvPrs_appendChild (e x : Elm) :
    cNvPrs (e.appendChild x) = cNvPrs e ++ cNvPrs x := by
  match e with
  | Elm.mk t i n h p cs =>
    simp [Elm.appendChild, cNvPrs, cNvPrsOf_append, cNvPrsOf]

theorem cNvPrIds_appendChild (e x : Elm) :
    cNvPrIds (e.appendChild x) = cNvPrIds e ++ cNvPrIds x := by
  simp [cNvPrIds, cNvPrs_appendChild]

theorem cNvPrNames_appendChild (e x : Elm) :
    cNvPrNames (e.appendChild x) = cNvPrNames e ++ cNvPrNames x := by
  simp [cNvPrNames, cNvPrs_appendChild]

theorem cNvPrs_builder_pic (id : Nat) (name : String) :
    cNvPrs (new_pic id name) = [(id, name)] := rfl

theorem cNvPrs_builder_placeholder (id : Nat) (name : String) (pt : PhType) (o : Orient)
    (sz idx : Nat) : cNvPrs (new_placeholder_sp id name pt o sz idx) = [(id, name)] := rfl

/-! ### The id allocator -/

theorem nextIdLoop_fresh (l : List Nat) (next : Nat) (hs : List.Sorted (· ≤ ·) l) :
    nextIdLoop l next ∉ l ∧ next ≤ nextIdLoop l next := by
  induction l generalizing next with
  | nil => simp [nextIdLoop]
  | cons a l ih =>
    have htail : List.Sorted (· ≤ ·) l := hs.of_cons
    have hall : ∀ x ∈ l, a ≤ x := fun x hx => List.rel_of_sorted_cons hs x hx
    rw [nextIdLoop]
    by_cases hlt : next < a
    · rw [if_pos hlt]
      refine ⟨?_, Nat.le_refl next⟩
      intro hmem
      rcases List.mem_cons.mp hmem with rfl | hmem2
      · omega
      · have := hall next hmem2
        omega
    · rw [if_neg hlt]
      obtain ⟨hnm, hge⟩ := ih (next + 1) htail
      refine ⟨?_, by omega⟩
      intro hmem
      rcases List.mem_cons.mp hmem with rfl | hmem2
      · omega
      · exact hnm hmem2

theorem nextIdLoop_least (l : List Nat) (next : Nat) (hs : List.Sorted (· < ·) l)
    (hall : ∀ x ∈ l, next ≤ x) :
    ∀ m, next ≤ m → m < nextIdLoop l next → m ∈ l := by
  induction l generalizing next with
  | nil =>
    intro m h1 h2
    rw [nextIdLoop] at h2
    omega
  | cons a l ih =>
    intro m h1 h2
    have htail : List.Sorted (· < ·) l := hs.of_cons
    have htall : ∀ x ∈ l, a < x := fun x hx => List.rel_of_sorted_cons hs x hx
    rw [nextIdLoop] at h2
    by_cases hlt : next < a
    · rw [if_pos hlt] at h2
      omega
    · rw [if_neg hlt] at h2
      have ha : a ≤ next := by omega
      have hnexta : a = next := Nat.le_antisymm ha (hall a (List.mem_cons_self a l))
      by_cases hm : m = a
      · exact hm ▸ List.mem_cons_self a l
      · refine List.mem_cons_of_mem a (ih (next + 1) htail (fun x hx => ?_) m (by omega) h2)
        have := htall x hx
        omega

theorem sorted_le_ids (t : Elm) :
    List.Sorted (· ≤ ·) (List.insertionSort (· ≤ ·) (cNvPrIds t)) :=
  List.sorted_insertionSort (· ≤ ·) (cNvPrIds t)

/-- The allocated id is never one already present anywhere in the tree. -/
theorem nextShapeId_fresh (t : Elm) : nextShapeId t ∉ cNvPrIds t := by
  have h := nextIdLoop_fresh (List.insertionSort (· ≤ ·) (cNvPrIds t)) 1 (sorted_le_ids t)
  intro hmem
  exact h.1 (((List.perm_insertionSort (· ≤ ·) (cNvPrIds t)).mem_iff).mpr hmem)

/-- The allocated id is positive. -/
theorem nextShapeId_pos (t : Elm) : 1 ≤ nextShapeId t :=
  (nextIdLoop_fresh (List.insertionSort (· ≤ ·) (cNvPrIds t)) 1 (sorted_le_ids t)).2

/-- C3: on a tree whose shape-identifying elements carry distinct positive
ids, `__next_shape_id` returns the smallest positive integer not present
among those ids: it is positive, absent, and every smaller positive integer
is present. -/
theorem next_shape_id_smallest_missing (t : Elm)
    (hnd : (cNvPrIds t).Nodup) (hpos : ∀ i ∈ cNvPrIds t, 0 < i) :
    0 < nextShapeId t ∧ nextShapeId t ∉ cNvPrIds t ∧
      ∀ m, 0 < m → m < nextShapeId t → m ∈ cNvPrIds t := by
  have hperm := List.perm_insertionSort (· ≤ ·) (cNvPrIds t)
  have hndS : (List.insertionSort (· ≤ ·) (cNvPrIds t)).Nodup := hperm.nodup_iff.mpr hnd
  have hlt : List.Sorted (· < ·) (List.insertionSort (· ≤ ·) (cNvPrIds t)) := by
    have := (sorted_le_ids t).and hndS
    exact this.imp (fun hab => Nat.lt_of_le_of_ne hab.1 hab.2)
  have hall : ∀ x ∈ List.insertionSort (· ≤ ·) (cNvPrIds t), 1 ≤ x := fun x hx =>
    hpos x (hperm.mem_iff.mp hx)
  refine ⟨nextShapeId_pos t, nextShapeId_fresh t, fun m hm1 hm2 => ?_⟩
  exact hperm.mem_iff.mp
    (nextIdLoop_least (List.insertionSort (· ≤ ·) (cNvPrIds t)) 1 hlt hall m hm1 hm2)

/-- C3 witness: the allocator applied to concrete trees with ids `{1,2,4}`
and `{1,2,3}`, which yield 3 and 4; the theorem's hypotheses are discharged
at `treeIds124`. -/
theorem next_shape_id_smallest_missing_witness :
    nextShapeId treeIds124 = 3 ∧ nextShapeId treeIds123 = 4 ∧
      (0 < nextShapeId treeIds124 ∧ nextShapeId treeIds124 ∉ cNvPrIds treeIds124 ∧
        ∀ m, 0 < m → m < nextShapeId treeIds124 → m ∈ cNvPrIds treeIds124) :=
  ⟨rfl, rfl,
    next_shape_id_smallest_missing treeIds124 (by decide) (by decide)⟩

/-! ### C1: id uniqueness under adds and clones -/

theorem cNvPrIds_builder_pic (id : Nat) (name : String) :
    cNvPrIds (new_pic id name) = [id] := rfl

/-- Appending a child whose only cNvPr id is the freshly allocated one
keeps the tree-wide id list duplicate-free. -/
theorem appendChild_fresh_nodup {t x : Elm} (hx : cNvPrIds x = [nextShapeId t])
    (h : (cNvPrIds t).Nodup) : (cNvPrIds (t.appendChild x)).Nodup := by
  rw [cNvPrIds_appendChild, hx]
  simp only [List.nodup_append, List.nodup_cons, List.not_mem_nil, not_false_iff,
    List.nodup_nil, and_true, true_and, List.disjoint_singleton]
  exact ⟨h, by simpa using nextShapeId_fresh t⟩

theorem clone_one_ids_nodup (c : Collection) (props : PhProps)
    (h : (cNvPrIds c.spTree).Nodup) :
    (cNvPrIds (c.clone_layout_placeholder props).1.spTree).Nodup :=
  appendChild_fresh_nodup rfl h

theorem clone_pass_ids_nodup (layout : List Elm) :
    ∀ c : Collection, (cNvPrIds c.spTree).Nodup →
      (cNvPrIds (c.clone_layout_placeholders layout).spTree).Nodup := by
  induction layout with
  | nil => intro c h; exact h
  | cons e es ih =>
    intro c h
    match hph : e.ph with
    | none => simpa [Collection.clone_layout_placeholders, hph] using ih c h
    | some props =>
      by_cases hl : props.phType ∈ latent_ph_types
      · simpa [Collection.clone_layout_placeholders, hph, hl] using ih c h
      · simpa [Collection.clone_layout_placeholders, hph, hl] using
          ih _ (clone_one_ids_nodup c props h)

theorem applyOp_ids_nodup (c : Collection) (op : Op)
    (h : (cNvPrIds c.spTree).Nodup) : (cNvPrIds (applyOp c op).spTree).Nodup := by
  cases op with
  | add_picture => exact appendChild_fresh_nodup rfl h
  | add_shape basename => exact appendChild_fresh_nodup rfl h
  | add_table => exact appendChild_fresh_nodup rfl h
  | add_textbox => exact appendChild_fresh_nodup rfl h
  | clone_layout_placeholders layout => exact clone_pass_ids_nodup layout c h

/-- C1: starting from a well-formed tree whose shape ids are distinct, after
any sequence of add operations and layout-placeholder cloning passes, no two
shape-identifying elements anywhere in the full tree share an id.  Any
prefix of a sequence is itself a sequence, so this covers every intermediate
state. -/
theorem ids_nodup_after_ops (c : Collection) (ops : List Op)
    (h : (cNvPrIds c.spTree).Nodup) : (cNvPrIds (runOps c ops).spTree).Nodup := by
  induction ops generalizing c with
  | nil => exact h
  | cons op ops ih => exact ih (applyOp c op) (applyOp_ids_nodup c op h)

/-- C1 witness: a concrete run (two adds, a cloning pass over a layout with
latent and non-latent placeholders, then another add) from a collection with
one existing shape; the distinct-ids hypothesis is discharged by computation. -/
theorem ids_nodup_after_ops_witness :
    (cNvPrIds (runOps cexColl
      [Op.add_picture, Op.add_shape "Oval", Op.clone_layout_placeholders testLayout,
        Op.add_table]).spTree).Nodup :=
  ids_nodup_after_ops cexColl
    [Op.add_picture, Op.add_shape "Oval", Op.clone_layout_placeholders testLayout,
      Op.add_table] (by decide)

/-! ### The composed-name format: decimal suffixes and injectivity -/

theorem digitChar_inj_lt {a b : Nat} (ha : a < 10) (hb : b < 10)
    (h : Nat.digitChar a = Nat.digitChar b) : a = b := by
  interval_cases a <;> interval_cases b <;> first | rfl | exact absurd h (by decide)

theorem digitChar_ne_space {d : Nat} (hd : d < 10) : Nat.digitChar d ≠ ' ' := by
  interval_cases d <;> decide

theorem natDecimal_no_space {n : Nat} {c : Char} (hc : c ∈ (natDecimal n).data) : c ≠ ' ' := by
  by_cases h : n = 0
  · subst h
    have h0 : (natDecimal 0).data = ['0'] := rfl
    rw [h0, List.mem_singleton] at hc
    subst hc
    decide
  · rw [natDecimal_eq_digits h] at hc
    simp only [List.mem_reverse, List.mem_map] at hc
    obtain ⟨d, hd, rfl⟩ := hc
    exact digitChar_ne_space (Nat.digits_lt_base (by norm_num) hd)

theorem map_digitChar_inj : ∀ (l1 l2 : List Nat), (∀ x ∈ l1, x < 10) → (∀ x ∈ l2, x < 10) →
    l1.map Nat.digitChar = l2.map Nat.digitChar → l1 = l2 := by
  intro l1
  induction l1 with
  | nil =>
    intro l2 _ _ h
    cases l2 with
    | nil => rfl
    | cons b l2 => simp at h
  | cons a l1 ih =>
    intro l2 h1 h2 h
    cases l2 with
    | nil => simp at h
    | cons b l2 =>
      simp only [List.map, List.cons.injEq] at h
      have hab : a = b :=
        digitChar_inj_lt (h1 a (List.mem_cons_self a l1)) (h2 b (List.mem_cons_self b l2)) h.1
      rw [hab, ih l2 (fun x hx => h1 x (List.mem_cons_of_mem a hx))
        (fun x hx => h2 x (List.mem_cons_of_mem b hx)) h.2]

theorem natDecimal_ne_zero_str {n : Nat} (h : n ≠ 0) : natDecimal n ≠ "0" := by
  rw [natDecimal_eq_digits h]
  intro heq
  have hdata : (((Nat.digits 10 n).map Nat.digitChar).reverse) = ['0'] :=
    congrArg String.data heq
  have hmap : (Nat.digits 10 n).map Nat.digitChar = ['0'] := by
    have := congrArg List.reverse hdata
    simpa using this
  have hl : Nat.digits 10 n = [0] :=
    map_digitChar_inj (Nat.digits 10 n) [0]
      (fun x hx => Nat.digits_lt_base (by norm_num) hx) (by simp) hmap
  have hofd := congrArg (Nat.ofDigits 10) hl
  rw [Nat.ofDigits_digits] at hofd
  simp [Nat.ofDigits] at hofd
  exact h hofd

theorem natDecimal_inj {m n : Nat} (h : natDecimal m = natDecimal n) : m = n := by
  by_cases hm : m = 0 <;> by_cases hn : n = 0
  · omega
  · exfalso
    rw [hm] at h
    exact natDecimal_ne_zero_str hn h.symm
  · exfalso
    rw [hn] at h
    exact natDecimal_ne_zero_str hm h
  · have hdata : (((Nat.digits 10 m).map Nat.digitChar).reverse)
        = (((Nat.digits 10 n).map Nat.digitChar).reverse) :=
      congrArg String.data
        ((natDecimal_eq_digits hm).symm.trans (h.trans (natDecimal_eq_digits hn)))
    have hmap := List.reverse_injective hdata
    have hdig : Nat.digits 10 m = Nat.digits 10 n :=
      map_digitChar_inj _ _ (fun x hx => Nat.digits_lt_base (by norm_num) hx)
        (fun x hx => Nat.digits_lt_base (by norm_num) hx) hmap
    have := congrArg (Nat.ofDigits 10) hdig
    rwa [Nat.ofDigits_digits, Nat.ofDigits_digits] at this

theorem append_sep_inj : ∀ (a1 a2 d1 d2 : List Char), (∀ c ∈ d1, c ≠ ' ') →
    (∀ c ∈ d2, c ≠ ' ') → a1 ++ ' ' :: d1 = a2 ++ ' ' :: d2 → a1 = a2 ∧ d1 = d2 := by
  intro a1
  induction a1 with
  | nil =>
    intro a2 d1 d2 h1 h2 h
    cases a2 with
    | nil => simpa using h
    | cons b a2 =>
      exfalso
      simp only [List.nil_append, List.cons_append, List.cons.injEq] at h
      have hmem : ' ' ∈ d1 := by
        rw [h.2]
        exact List.mem_append_right a2 (List.mem_cons_self _ _)
      exact absurd rfl (h1 ' ' hmem)
  | cons b a1 ih =>
    intro a2 d1 d2 h1 h2 h
    cases a2 with
    | nil =>
      exfalso
      simp only [List.nil_append, List.cons_append, List.cons.injEq] at h
      have hmem : ' ' ∈ d2 := by
        rw [← h.2]
        exact List.mem_append_right a1 (List.mem_cons_self _ _)
      exact absurd rfl (h2 ' ' hmem)
    | cons b2 a2 =>
      simp only [List.cons_append, List.cons.injEq] at h
      obtain ⟨he, hd⟩ := ih a2 d1 d2 h1 h2 h.2
      exact ⟨by rw [h.1, he], hd⟩

theorem composeName_data (b : String) (n : Nat) :
    (composeName b n).data = b.data ++ ' ' :: (natDecimal n).data := by
  show ((b ++ " ") ++ natDecimal n).data = _
  rw [String.data_append, String.data_append, List.append_assoc]
  rfl

theorem composeName_inj {b1 b2 : String} {k1 k2 : Nat}
    (h : composeName b1 k1 = composeName b2 k2) : b1 = b2 ∧ k1 = k2 := by
  have hdata := congrArg String.data h
  rw [composeName_data, composeName_data] at hdata
  obtain ⟨hb, hd⟩ := append_sep_inj b1.data b2.data (natDecimal k1).data (natDecimal k2).data
    (fun c hc => natDecimal_no_space hc) (fun c hc => natDecimal_no_space hc) hdata
  exact ⟨String.ext hb, natDecimal_inj (String.ext hd)⟩

/-! ### The collision loop of the placeholder name allocator -/

theorem phNameLoop_eq_of_mem {b : String} {names : List String} {np : Nat}
    (h : composeName b np ∈ names) : phNameLoop b names np = phNameLoop b names (np + 1) := by
  rw [phNameLoop, dif_pos h]

theorem phNameLoop_eq_of_not_mem {b : String} {names : List String} {np : Nat}
    (h : composeName b np ∉ names) : phNameLoop b names np = composeName b np := by
  rw [phNameLoop, dif_neg h]

/-- The collision loop returns the composed name at the least free suffix at
or above its starting point. -/
theorem phNameLoop_spec (b : String) (names : List String) (np : Nat) :
    ∃ k, np ≤ k ∧ phNameLoop b names np = composeName b k ∧ composeName b k ∉ names ∧
      ∀ m, np ≤ m → m < k → composeName b m ∈ names := by
  induction np using phNameLoop.induct b names with
  | case1 np h ih =>
    obtain ⟨k, hk1, hk2, hk3, hk4⟩ := ih
    refine ⟨k, by omega, ?_, hk3, ?_⟩
    · rw [phNameLoop_eq_of_mem h, hk2]
    · intro m hm1 hm2
      by_cases hm : m = np
      · exact hm ▸ h
      · exact hk4 m (by omega) hm2
  | case2 np h =>
    exact ⟨np, Nat.le_refl np, phNameLoop_eq_of_not_mem h, h, fun m hm1 hm2 => by omega⟩

/-- C10: for any tree (hence any finite list of existing shape names) and
any candidate id, the collision loop of `__next_ph_name` terminates: some
suffix at or above `id - 1` composes a name absent from the tree, and the
allocator returns the composed name of such a suffix. -/
theorem ph_name_loop_terminates (t : Elm) (pt : PhType) (id : Nat) (o : Orient) :
    ∃ k, id - 1 ≤ k ∧ composeName (phBasename pt o) k ∉ cNvPrNames t ∧
      nextPhName t pt id o = composeName (phBasename pt o) k := by
  obtain ⟨k, h1, h2, h3, _⟩ := phNameLoop_spec (phBasename pt o) (cNvPrNames t) (id - 1)
  exact ⟨k, h1, h3, h2⟩

/-- C4: `__next_ph_name` starts from the fixed basename of the placeholder
type, prefixed with "Vertical " exactly when the orientation is vertical,
and suffixes it with the least integer `n ≥ id - 1` whose composed name does
not occur among the shape names present in the full tree. -/
theorem next_ph_name_spec (t : Elm) (pt : PhType) (id : Nat) (o : Orient) :
    (phBasename pt o =
      if o = Orient.vert then "Vertical " ++ slide_ph_basenames pt
      else slide_ph_basenames pt) ∧
    ∃ n, nextPhName t pt id o = composeName (phBasename pt o) n ∧ id - 1 ≤ n ∧
      composeName (phBasename pt o) n ∉ cNvPrNames t ∧
      ∀ m, id - 1 ≤ m → m < n → composeName (phBasename pt o) m ∈ cNvPrNames t := by
  refine ⟨rfl, ?_⟩
  obtain ⟨k, h1, h2, h3, h4⟩ := phNameLoop_spec (phBasename pt o) (cNvPrNames t) (id - 1)
  exact ⟨k, h2, h1, h3, h4⟩

/-- The spec's worked example: cloning a vertical body placeholder with
candidate id 5 into a tree with no colliding names composes
"Vertical Text Placeholder 4". -/
theorem next_ph_name_vertical_example :
    nextPhName emptyTree PhType.body 5 Orient.vert = "Vertical Text Placeholder 4" := by
  have h : composeName (phBasename PhType.body Orient.vert) 4 ∉ cNvPrNames emptyTree := by
    decide
  exact (phNameLoop_eq_of_not_mem h).trans rfl

/-! ### C2: name uniqueness -/

/-- A composed name is never the empty string. -/
theorem composeName_ne_empty (b : String) (k : Nat) : composeName b k ≠ "" := by
  intro h
  have hd := congrArg String.data h
  rw [composeName_data] at hd
  simp at hd

/-- Under the invariant, the composed name for the freshly allocated id is
absent from the tree: original names never have composed form, and a
composed name present in the tree embeds a different id. -/
theorem composed_fresh {B orig : List String} {t : Elm} {b : String}
    (horig : ∀ n ∈ orig, ∀ b2 ∈ B, ∀ k, n ≠ composeName b2 k)
    (hInv : NamesOK B orig t) (hb : b ∈ B) :
    composeName b (nextShapeId t - 1) ∉ cNvPrNames t := by
  intro hmem
  obtain ⟨p, hp, hpeq⟩ := List.mem_map.mp hmem
  rcases hInv.2.2 p hp with horig2 | ⟨b2, hb2, hpos, hcomp⟩
  · exact horig p.2 horig2 b hb (nextShapeId t - 1) hpeq
  · have hinj := composeName_inj (hcomp.symm.trans hpeq)
    have hpos2 := nextShapeId_pos t
    have hid : p.1 = nextShapeId t := by
      have := hinj.2
      omega
    exact nextShapeId_fresh t (hid ▸ List.mem_map_of_mem Prod.fst hp)

/-- Appending a child carrying the freshly allocated id and its composed
name (basename in `B`) preserves the name-uniqueness invariant. -/
theorem NamesOK_appendChild {B orig : List String} {t x : Elm} {b : String}
    (horig : ∀ n ∈ orig, ∀ b2 ∈ B, ∀ k, n ≠ composeName b2 k)
    (hInv : NamesOK B orig t) (hb : b ∈ B)
    (hx : cNvPrs x = [(nextShapeId t, composeName b (nextShapeId t - 1))]) :
    NamesOK B orig (t.appendChild x) := by
  obtain ⟨hids, hnames, hpairs⟩ := hInv
  have hxids : cNvPrIds x = [nextShapeId t] := by simp [cNvPrIds, hx]
  have hxnames : cNvPrNames x = [composeName b (nextShapeId t - 1)] := by
    simp [cNvPrNames, hx]
  refine ⟨?_, ?_, ?_⟩
  · rw [cNvPrIds_appendChild, hxids]
    simp only [List.nodup_append, List.nodup_cons, List.not_mem_nil, not_false_iff,
      List.nodup_nil, and_true, true_and, List.disjoint_singleton]
    exact ⟨hids, by simpa using nextShapeId_fresh t⟩
  · rw [cNvPrNames_appendChild, hxnames]
    simp only [List.nodup_append, List.nodup_cons, List.not_mem_nil, not_false_iff,
      List.nodup_nil, and_true, true_and, List.disjoint_singleton]
    exact ⟨hnames, by simpa using composed_fresh horig ⟨hids, hnames, hpairs⟩ hb⟩
  · intro p hp
    rw [cNvPrs_appendChild, hx] at hp
    rcases List.mem_append.mp hp with hold | hnew
    · exact hpairs p hold
    · rw [List.mem_singleton] at hnew
      subst hnew
      exact Or.inr ⟨b, hb, nextShapeId_pos t, rfl⟩

/-- A cloning pass over a layout preserves the invariant, provided the
basenames it can use are in `B`: each clone's collision loop exits at its
first candidate, the composed name of the fresh id. -/
theorem NamesOK_clone_pass {B orig : List String} (layout : List Elm)
    (horig : ∀ n ∈ orig, ∀ b2 ∈ B, ∀ k, n ≠ composeName b2 k) :
    ∀ c : Collection, (∀ s ∈ layoutPhBasenames layout, s ∈ B) →
      NamesOK B orig c.spTree →
      NamesOK B orig (c.clone_layout_placeholders layout).spTree := by
  induction layout with
  | nil => intro c _ h; exact h
  | cons e es ih =>
    intro c hsub h
    match hph : e.ph with
    | none =>
      have hsub2 : ∀ s ∈ layoutPhBasenames es, s ∈ B := fun s hs =>
        hsub s (by simp [layoutPhBasenames, hph, hs])
      simpa [Collection.clone_layout_placeholders, hph] using ih c hsub2 h
    | some props =>
      by_cases hl : props.phType ∈ latent_ph_types
      · have hsub2 : ∀ s ∈ layoutPhBasenames es, s ∈ B := fun s hs =>
          hsub s (by simp [layoutPhBasenames, hph, hl, hs])
        simpa [Collection.clone_layout_placeholders, hph, hl] using ih c hsub2 h
      · have hsub2 : ∀ s ∈ layoutPhBasenames es, s ∈ B := fun s hs =>
          hsub s (by simp [layoutPhBasenames, hph, hl, hs])
        have hb : phBasename props.phType props.orient ∈ B :=
          hsub _ (by simp [layoutPhBasenames, hph, hl])
        have hname : nextPhName c.spTree props.phType (nextShapeId c.spTree) props.orient
            = composeName (phBasename props.phType props.orient) (nextShapeId c.spTree - 1) :=
          phNameLoop_eq_of_not_mem (composed_fresh horig h hb)
        have hstep : NamesOK B orig (c.clone_layout_placeholder props).1.spTree := by
          refine NamesOK_appendChild horig h hb ?_
          show cNvPrs (new_placeholder_sp (nextShapeId c.spTree)
            (nextPhName c.spTree props.phType (nextShapeId c.spTree) props.orient)
            props.phType props.orient props.sz props.idx) = _
          rw [cNvPrs_builder_placeholder, hname]
        simpa [Collection.clone_layout_placeholders, hph, hl] using
          ih (c.clone_layout_placeholder props).1 hsub2 hstep

/-- Each operation preserves the invariant when its basenames are in `B`. -/
theorem NamesOK_applyOp {B orig : List String} (c : Collection) (op : Op)
    (horig : ∀ n ∈ orig, ∀ b2 ∈ B, ∀ k, n ≠ composeName b2 k)
    (hsub : ∀ s ∈ opBasenames op, s ∈ B)
    (h : NamesOK B orig c.spTree) : NamesOK B orig (applyOp c op).spTree := by
  cases op with
  | add_picture =>
    exact NamesOK_appendChild horig h (hsub "Picture" (by simp [opBasenames])) rfl
  | add_shape basename =>
    exact NamesOK_appendChild horig h (hsub basename (by simp [opBasenames])) rfl
  | add_table =>
    exact NamesOK_appendChild horig h (hsub "Table" (by simp [opBasenames])) rfl
  | add_textbox =>
    exact NamesOK_appendChild horig h (hsub "TextBox" (by simp [opBasenames])) rfl
  | clone_layout_placeholders layout =>
    exact NamesOK_clone_pass layout horig c (fun s hs => hsub s (by simp [opBasenames, hs])) h

theorem NamesOK_runOps {B orig : List String} (ops : List Op)
    (horig : ∀ n ∈ orig, ∀ b2 ∈ B, ∀ k, n ≠ composeName b2 k) :
    ∀ c : Collection, (∀ s ∈ opsBasenames ops, s ∈ B) → NamesOK B orig c.spTree →
      NamesOK B orig (runOps c ops).spTree := by
  induction ops with
  | nil => intro c _ h; exact h
  | cons op ops ih =>
    intro c hsub h
    have h1 : ∀ s ∈ opBasenames op, s ∈ B := fun s hs =>
      hsub s (by simp [opsBasenames, hs])
    have h2 : ∀ s ∈ opsBasenames ops, s ∈ B := fun s hs => by
      refine hsub s ?_
      simp only [opsBasenames, List.map, List.flatten] at hs ⊢
      exact List.mem_append_right _ hs
    exact ih (applyOp c op) h2 (NamesOK_applyOp c op horig h1 h)

/-- C2 counterexample: with arbitrary pre-existing shape names the claim
fails.  `cexColl` has distinct ids `{1, 2}` and a picture already named
"Picture 2" (a name whose suffix does not match its id); a single
`add_picture` then allocates id 3 and composes the same name "Picture 2",
so two shapes in the tree share a name after the operation. -/
theorem names_collide_with_preexisting_names :
    (cNvPrIds cexColl.spTree).Nodup ∧
      ¬ (cNvPrNames (runOps cexColl [Op.add_picture]).spTree).Nodup :=
  ⟨by decide, by decide⟩

/-- C2 (amended): starting from a well-formed tree whose shape ids are
distinct, whose shape names are pairwise distinct, and none of whose names
has the composed form `b ++ " " ++ decimal k` for a basename `b` the
operations use, after any sequence of add and clone operations no two
shapes anywhere in the full tree share a name; the non-placeholder adds use
the composed name `basename (id-1)` directly, with no collision search. -/
theorem names_nodup_after_ops (c : Collection) (ops : List Op)
    (hids : (cNvPrIds c.spTree).Nodup)
    (hnames : (cNvPrNames c.spTree).Nodup)
    (hfree : ∀ n ∈ cNvPrNames c.spTree, ∀ b ∈ opsBasenames ops, ∀ k, n ≠ composeName b k) :
    (cNvPrNames (runOps c ops).spTree).Nodup := by
  have h0 : NamesOK (opsBasenames ops) (cNvPrNames c.spTree) c.spTree :=
    ⟨hids, hnames, fun p hp => Or.inl (List.mem_map_of_mem Prod.snd hp)⟩
  exact (NamesOK_runOps ops hfree c (fun s hs => hs) h0).2.1

/-- C2 witness: a concrete run with adds and a cloning pass from the minimal
tree (sole name the empty string, which is not of composed form). -/
theorem names_nodup_after_ops_witness :
    (cNvPrNames (runOps emptyColl
      [Op.add_picture, Op.add_shape "Oval", Op.clone_layout_placeholders testLayout,
        Op.add_textbox]).spTree).Nodup :=
  names_nodup_after_ops emptyColl
    [Op.add_picture, Op.add_shape "Oval", Op.clone_layout_placeholders testLayout,
      Op.add_textbox] (by decide) (by decide)
    (by
      intro n hn b hb k
      have hn2 : n = "" := by
        have he : cNvPrNames emptyColl.spTree = [""] := rfl
        rw [he, List.mem_singleton] at hn
        exact hn
      rw [hn2]
      exact fun h => composeName_ne_empty b k h.symm)

/-! ### C5: layout-placeholder cloning -/

theorem children_appendChild (t x : Elm) :
    (t.appendChild x).children = t.children ++ [x] := by
  match t with
  | Elm.mk tg i n h p cs => rfl

theorem nextPhName_not_mem (t : Elm) (pt : PhType) (id : Nat) (o : Orient) :
    nextPhName t pt id o ∉ cNvPrNames t := by
  obtain ⟨k, _, h2, h3, _⟩ := phNameLoop_spec (phBasename pt o) (cNvPrNames t) (id - 1)
  rw [nextPhName, h2]
  exact h3

theorem nonLatentPhs_not_latent :
    ∀ l : List Elm, ∀ p ∈ nonLatentPhs l, p.phType ∉ latent_ph_types := by
  intro l
  induction l with
  | nil => intro p hp; cases hp
  | cons e es ih =>
    intro p hp
    rw [nonLatentPhs] at hp
    rcases List.mem_append.mp hp with hhd | htl
    · match hph : e.ph with
      | none => rw [hph] at hhd; cases hhd
      | some props =>
        rw [hph] at hhd
        by_cases hl : props.phType ∈ latent_ph_types
        · simp [hl] at hhd
        · simp [hl] at hhd
          exact hhd ▸ hl
    · exact ih p htl

/-- The inductive core of C5: the cloning pass appends, in layout document
order, one placeholder `p:sp` per non-latent layout placeholder, copying its
data, pairing one wrapped shape per appended node, and allocating ids and
names that are fresh for the tree they are allocated against. -/
theorem clone_pass_spec (layout : List Elm) :
    ∀ c : Collection, ∃ news newsS newIds newNames,
      (c.clone_layout_placeholders layout).spTree.children = c.spTree.children ++ news ∧
      (c.clone_layout_placeholders layout).shapes = c.shapes ++ newsS ∧
      newsS.map Shape.elmOf = news ∧
      news.map Elm.ph = (nonLatentPhs layout).map some ∧
      news.map Elm.tag = (nonLatentPhs layout).map (fun _ => Tag.sp) ∧
      cNvPrIds (c.clone_layout_placeholders layout).spTree = cNvPrIds c.spTree ++ newIds ∧
      newIds.Nodup ∧ (∀ i ∈ newIds, i ∉ cNvPrIds c.spTree) ∧
      cNvPrNames (c.clone_layout_placeholders layout).spTree
        = cNvPrNames c.spTree ++ newNames ∧
      newNames.Nodup ∧ (∀ nm ∈ newNames, nm ∉ cNvPrNames c.spTree) := by
  induction layout with
  | nil =>
    intro c
    exact ⟨[], [], [], [], by simp [Collection.clone_layout_placeholders],
      by simp [Collection.clone_layout_placeholders], rfl, by simp [nonLatentPhs],
      by simp [nonLatentPhs], by simp [Collection.clone_layout_placeholders],
      List.nodup_nil, by simp, by simp [Collection.clone_layout_placeholders],
      List.nodup_nil, by simp⟩
  | cons e es ih =>
    intro c
    match hph : e.ph with
    | none =>
      obtain ⟨news, newsS, newIds, newNames, h1, h2, h3, h4, h5, h6, h7, h8, h9, h10, h11⟩ :=
        ih c
      refine ⟨news, newsS, newIds, newNames, ?_, ?_, h3, ?_, ?_, ?_, h7, h8, ?_, h10, h11⟩ <;>
        simp [Collection.clone_layout_placeholders, hph, nonLatentPhs, h1, h2, h4, h5, h6, h9]
    | some props =>
      by_cases hl : props.phType ∈ latent_ph_types
      · obtain ⟨news, newsS, newIds, newNames, h1, h2, h3, h4, h5, h6, h7, h8, h9, h10, h11⟩ :=
          ih c
        refine ⟨news, newsS, newIds, newNames, ?_, ?_, h3, ?_, ?_, ?_, h7, h8, ?_, h10, h11⟩ <;>
          simp [Collection.clone_layout_placeholders, hph, hl, nonLatentPhs, h1, h2, h4, h5, h6, h9]
      · obtain ⟨news, newsS, newIds, newNames, h1, h2, h3, h4, h5, h6, h7, h8, h9, h10, h11⟩ :=
          ih (c.clone_layout_placeholder props).1
        have hid : cNvPrIds (c.clone_layout_placeholder props).1.spTree
            = cNvPrIds c.spTree ++ [nextShapeId c.spTree] := by
          rw [show (c.clone_layout_placeholder props).1.spTree
              = c.spTree.appendChild (new_placeholder_sp (nextShapeId c.spTree)
                (nextPhName c.spTree props.phType (nextShapeId c.spTree) props.orient)
                props.phType props.orient props.sz props.idx) from rfl,
            cNvPrIds_appendChild]
          rfl
        have hnm : cNvPrNames (c.clone_layout_placeholder props).1.spTree
            = cNvPrNames c.spTree
              ++ [nextPhName c.spTree props.phType (nextShapeId c.spTree) props.orient] := by
          rw [show (c.clone_layout_placeholder props).1.spTree
              = c.spTree.appendChild (new_placeholder_sp (nextShapeId c.spTree)
                (nextPhName c.spTree props.phType (nextShapeId c.spTree) props.orient)
                props.phType props.orient props.sz props.idx) from rfl,
            cNvPrNames_appendChild]
          rfl
        refine ⟨new_placeholder_sp (nextShapeId c.spTree)
            (nextPhName c.spTree props.phType (nextShapeId c.spTree) props.orient)
            props.phType props.orient props.sz props.idx :: news,
          Shape.shape (new_placeholder_sp (nextShapeId c.spTree)
            (nextPhName c.spTree props.phType (nextShapeId c.spTree) props.orient)
            props.phType props.orient props.sz props.idx) :: newsS,
          nextShapeId c.spTree :: newIds,
          nextPhName c.spTree props.phType (nextShapeId c.spTree) props.orient :: newNames,
          ?_, ?_, ?_, ?_, ?_, ?_, ?_, ?_, ?_, ?_, ?_⟩
        · rw [show c.clone_layout_placeholders (e :: es)
              = (c.clone_layout_placeholder props).1.clone_layout_placeholders es by
            simp [Collection.clone_layout_placeholders, hph, hl], h1,
            show (c.clone_layout_placeholder props).1.spTree.children
              = c.spTree.children ++ [new_placeholder_sp (nextShapeId c.spTree)
                (nextPhName c.spTree props.phType (nextShapeId c.spTree) props.orient)
                props.phType props.orient props.sz props.idx] from children_appendChild _ _]
          simp
        · rw [show c.clone_layout_placeholders (e :: es)
              = (c.clone_layout_placeholder props).1.clone_layout_placeholders es by
            simp [Collection.clone_layout_placeholders, hph, hl], h2]
          simp [Collection.clone_layout_placeholder]
        · simp [h3, Shape.elmOf]
        · have hnewph : (new_placeholder_sp (nextShapeId c.spTree)
              (nextPhName c.spTree props.phType (nextShapeId c.spTree) props.orient)
              props.phType props.orient props.sz props.idx).ph = some props := rfl
          simp [nonLatentPhs, hph, hl, h4, hnewph]
        · have hnewtag : (new_placeholder_sp (nextShapeId c.spTree)
              (nextPhName c.spTree props.phType (nextShapeId c.spTree) props.orient)
              props.phType props.orient props.sz props.idx).tag = Tag.sp := rfl
          simp [nonLatentPhs, hph, hl, h5, hnewtag]
        · rw [show c.clone_layout_placeholders (e :: es)
              = (c.clone_layout_placeholder props).1.clone_layout_placeholders es by
            simp [Collection.clone_layout_placeholders, hph, hl], h6, hid]
          simp
        · refine List.Nodup.cons (fun hmem => ?_) h7
          have := h8 _ hmem
          rw [hid] at this
          simp at this
        · intro i hi
          rcases List.mem_cons.mp hi with rfl | hi2
          · exact nextShapeId_fresh c.spTree
          · intro hmem
            have := h8 i hi2
            rw [hid] at this
            exact this (List.mem_append_left _ hmem)
        · rw [show c.clone_layout_placeholders (e :: es)
              = (c.clone_layout_placeholder props).1.clone_layout_placeholders es by
            simp [Collection.clone_layout_placeholders, hph, hl], h9, hnm]
          simp
        · refine List.Nodup.cons (fun hmem => ?_) h10
          have := h11 _ hmem
          rw [hnm] at this
          simp at this
        · intro nm hnm2
          rcases List.mem_cons.mp hnm2 with rfl | hi2
          · exact nextPhName_not_mem c.spTree props.phType (nextShapeId c.spTree) props.orient
          · intro hmem
            have := h11 nm hi2
            rw [hnm] at this
            exact this (List.mem_append_left _ hmem)

/-- C5: a cloning pass copies, in the layout's document order, exactly the
layout shapes that are placeholders of non-latent type (date, slide-number
and footer are never cloned): it appends one placeholder `p:sp` per such
placeholder, pairing a wrapped shape with each, copying the layout
placeholder's type, orientation, size and idx, and allocating ids and names
that are fresh against the tree (distinct among themselves and absent from
the pre-clone tree). -/
theorem clone_layout_placeholders_spec (c : Collection) (layout : List Elm) :
    ∃ news newsS newIds newNames,
      (c.clone_layout_placeholders layout).spTree.children = c.spTree.children ++ news ∧
      (c.clone_layout_placeholders layout).shapes = c.shapes ++ newsS ∧
      newsS.map Shape.elmOf = news ∧
      news.map Elm.ph = (nonLatentPhs layout).map some ∧
      news.map Elm.tag = (nonLatentPhs layout).map (fun _ => Tag.sp) ∧
      (∀ e ∈ news, ∀ p, e.ph = some p → p.phType ∉ latent_ph_types) ∧
      cNvPrIds (c.clone_layout_placeholders layout).spTree = cNvPrIds c.spTree ++ newIds ∧
      newIds.Nodup ∧ (∀ i ∈ newIds, i ∉ cNvPrIds c.spTree) ∧
      cNvPrNames (c.clone_layout_placeholders layout).spTree
        = cNvPrNames c.spTree ++ newNames ∧
      newNames.Nodup ∧ (∀ nm ∈ newNames, nm ∉ cNvPrNames c.spTree) := by
  obtain ⟨news, newsS, newIds, newNames, h1, h2, h3, h4, h5, h6, h7, h8, h9, h10, h11⟩ :=
    clone_pass_spec layout c
  refine ⟨news, newsS, newIds, newNames, h1, h2, h3, h4, h5, ?_, h6, h7, h8, h9, h10, h11⟩
  intro e he p hp
  have hmem : Elm.ph e ∈ news.map Elm.ph := List.mem_map_of_mem Elm.ph he
  rw [h4, hp] at hmem
  obtain ⟨q, hq, hqe⟩ := List.mem_map.mp hmem
  have : q = p := by injection hqe
  exact this ▸ nonLatentPhs_not_latent layout q hq

/-! ### The unmarshal dispatch, one child at a time -/

theorem unmarshalOne_of_skip {e : Elm} (h : isSkipTag e.tag = true) :
    unmarshalOne e = Except.ok none := by
  match e with
  | Elm.mk t i n hb p cs =>
    simp only [Elm.tag] at h
    rw [unmarshalOne, if_pos h]

theorem unmarshalOne_skip_of_none {e : Elm} (h : unmarshalOne e = Except.ok none) :
    isSkipTag e.tag = true := by
  match e with
  | Elm.mk t i n hb p cs =>
    cases t with
    | nvGrpSpPr => rfl
    | grpSpPr => rfl
    | extLst => rfl
    | sp => simp [unmarshalOne, isSkipTag] at h
    | pic => simp [unmarshalOne, isSkipTag] at h
    | grpSp =>
      have h2 : unmarshalOne (Elm.mk Tag.grpSp i n hb p cs)
          = Except.map (fun sub => some (Shape.group (Elm.mk Tag.grpSp i n hb p cs) sub))
            (unmarshalShapes cs) := rfl
      rw [h2] at h
      cases h6 : unmarshalShapes cs <;> rw [h6] at h <;> simp [Except.map] at h
    | graphicFrame => cases hb <;> simp [unmarshalOne, isSkipTag] at h
    | cxnSp => simp [unmarshalOne, isSkipTag] at h
    | contentPart => simp [unmarshalOne, isSkipTag] at h
    | cNvPr => simp [unmarshalOne, isSkipTag] at h
    | unknown m => simp [unmarshalOne, isSkipTag] at h

theorem unmarshalOne_elmOf {e : Elm} {s : Shape} (h : unmarshalOne e = Except.ok (some s)) :
    s.elmOf = e ∧ isSkipTag e.tag = false := by
  match e with
  | Elm.mk t i n hb p cs =>
    cases t with
    | nvGrpSpPr => simp [unmarshalOne, isSkipTag] at h
    | grpSpPr => simp [unmarshalOne, isSkipTag] at h
    | extLst => simp [unmarshalOne, isSkipTag] at h
    | sp =>
      have h2 : unmarshalOne (Elm.mk Tag.sp i n hb p cs)
          = Except.ok (some (Shape.shape (Elm.mk Tag.sp i n hb p cs))) := rfl
      rw [h2] at h
      have hs := Option.some.inj (Except.ok.inj h)
      exact ⟨by rw [← hs]; rfl, rfl⟩
    | pic =>
      have h2 : unmarshalOne (Elm.mk Tag.pic i n hb p cs)
          = Except.ok (some (Shape.picture (Elm.mk Tag.pic i n hb p cs))) := rfl
      rw [h2] at h
      have hs := Option.some.inj (Except.ok.inj h)
      exact ⟨by rw [← hs]; rfl, rfl⟩
    | grpSp =>
      have h2 : unmarshalOne (Elm.mk Tag.grpSp i n hb p cs)
          = Except.map (fun sub => some (Shape.group (Elm.mk Tag.grpSp i n hb p cs) sub))
            (unmarshalShapes cs) := rfl
      rw [h2] at h
      cases h6 : unmarshalShapes cs with
      | error err => rw [h6] at h; simp [Except.map] at h
      | ok sub =>
        rw [h6] at h
        simp only [Except.map, Except.ok.injEq, Option.some.injEq] at h
        exact ⟨by rw [← h]; rfl, rfl⟩
    | graphicFrame =>
      cases hb with
      | true =>
        have h2 : unmarshalOne (Elm.mk Tag.graphicFrame i n true p cs)
            = Except.ok (some (Shape.table (Elm.mk Tag.graphicFrame i n true p cs))) := rfl
        rw [h2] at h
        have hs := Option.some.inj (Except.ok.inj h)
        exact ⟨by rw [← hs]; rfl, rfl⟩
      | false =>
        have h2 : unmarshalOne (Elm.mk Tag.graphicFrame i n false p cs)
            = Except.ok (some (Shape.base (Elm.mk Tag.graphicFrame i n false p cs))) := rfl
        rw [h2] at h
        have hs := Option.some.inj (Except.ok.inj h)
        exact ⟨by rw [← hs]; rfl, rfl⟩
    | cxnSp =>
      have h2 : unmarshalOne (Elm.mk Tag.cxnSp i n hb p cs)
          = Except.ok (some (Shape.base (Elm.mk Tag.cxnSp i n hb p cs))) := rfl
      rw [h2] at h
      have hs := Option.some.inj (Except.ok.inj h)
      exact ⟨by rw [← hs]; rfl, rfl⟩
    | contentPart => simp [unmarshalOne, isSkipTag] at h
    | cNvPr =>
      have h2 : unmarshalOne (Elm.mk Tag.cNvPr i n hb p cs)
          = Except.ok (some (Shape.base (Elm.mk Tag.cNvPr i n hb p cs))) := rfl
      rw [h2] at h
      have hs := Option.some.inj (Except.ok.inj h)
      exact ⟨by rw [← hs]; rfl, rfl⟩
    | unknown m =>
      have h2 : unmarshalOne (Elm.mk (Tag.unknown m) i n hb p cs)
          = Except.ok (some (Shape.base (Elm.mk (Tag.unknown m) i n hb p cs))) := rfl
      rw [h2] at h
      have hs := Option.some.inj (Except.ok.inj h)
      exact ⟨by rw [← hs]; rfl, rfl⟩

/-- Unmarshal pairs the produced shapes one-to-one, in order, with the
qualifying (non-skipped) children. -/
theorem unmarshal_map_elmOf : ∀ (es : List Elm) (shapes : List Shape),
    unmarshalShapes es = Except.ok shapes → shapes.map Shape.elmOf = qualifying es := by
  intro es
  induction es with
  | nil =>
    intro shapes h
    rw [unmarshalShapes] at h
    simp only [Except.ok.injEq] at h
    rw [← h]
    rfl
  | cons e es ih =>
    intro shapes h
    rw [unmarshalShapes] at h
    match h1 : unmarshalOne e with
    | Except.error err => rw [h1] at h; exact Except.noConfusion h
    | Except.ok none =>
      rw [h1] at h
      have hskip := unmarshalOne_skip_of_none h1
      rw [ih shapes h]
      simp [qualifying, List.filter_cons, hskip]
    | Except.ok (some s) =>
      rw [h1] at h
      obtain ⟨helm, hns⟩ := unmarshalOne_elmOf h1
      match h2 : unmarshalShapes es with
      | Except.error err => rw [h2] at h; simp [Except.map] at h
      | Except.ok rest =>
        rw [h2] at h
        simp only [Except.map, Except.ok.injEq] at h
        rw [← h, List.map_cons, helm, ih rest h2]
        simp [qualifying, List.filter_cons, hns]

/-- C9: the in-memory sequence and the backing children stay in one-to-one
order-preserving correspondence: construction wraps exactly the qualifying
children in document order; each operation appends its new child elements to
the backing node and, pairwise in the same operation, the wrapped shapes to
the sequence (exactly one of each for the four adds); and every reachable
state of the pairing invariant is preserved. -/
theorem shapes_tree_pairing :
    (∀ (t : Elm) (c : Collection), mkCollection t = Except.ok c → Paired c) ∧
    (∀ (c : Collection) (op : Op), ∃ (newElms : List Elm) (newShapes : List Shape),
      (applyOp c op).spTree.children = c.spTree.children ++ newElms ∧
      (applyOp c op).shapes = c.shapes ++ newShapes ∧
      newShapes.map Shape.elmOf = newElms ∧
      (∀ e ∈ newElms, isSkipTag e.tag = false) ∧
      ((∀ l, op ≠ Op.clone_layout_placeholders l) → newElms.length = 1)) ∧
    (∀ (c : Collection) (ops : List Op), Paired c → Paired (runOps c ops)) := by
  have hstep : ∀ (c : Collection) (op : Op), ∃ (newElms : List Elm) (newShapes : List Shape),
      (applyOp c op).spTree.children = c.spTree.children ++ newElms ∧
      (applyOp c op).shapes = c.shapes ++ newShapes ∧
      newShapes.map Shape.elmOf = newElms ∧
      (∀ e ∈ newElms, isSkipTag e.tag = false) ∧
      ((∀ l, op ≠ Op.clone_layout_placeholders l) → newElms.length = 1) := by
    intro c op
    cases op with
    | add_picture =>
      refine ⟨[new_pic (nextShapeId c.spTree)
          (composeName "Picture" (nextShapeId c.spTree - 1))], [Shape.picture _],
        children_appendChild _ _, rfl, rfl, ?_, fun _ => rfl⟩
      intro e he
      rw [List.mem_singleton] at he
      subst he
      rfl
    | add_shape basename =>
      refine ⟨[new_autoshape_sp (nextShapeId c.spTree)
          (composeName basename (nextShapeId c.spTree - 1))], [Shape.shape _],
        children_appendChild _ _, rfl, rfl, ?_, fun _ => rfl⟩
      intro e he
      rw [List.mem_singleton] at he
      subst he
      rfl
    | add_table =>
      refine ⟨[new_table (nextShapeId c.spTree)
          (composeName "Table" (nextShapeId c.spTree - 1))], [Shape.table _],
        children_appendChild _ _, rfl, rfl, ?_, fun _ => rfl⟩
      intro e he
      rw [List.mem_singleton] at he
      subst he
      rfl
    | add_textbox =>
      refine ⟨[new_textbox_sp (nextShapeId c.spTree)
          (composeName "TextBox" (nextShapeId c.spTree - 1))], [Shape.shape _],
        children_appendChild _ _, rfl, rfl, ?_, fun _ => rfl⟩
      intro e he
      rw [List.mem_singleton] at he
      subst he
      rfl
    | clone_layout_placeholders layout =>
      obtain ⟨news, newsS, newIds, newNames, h1, h2, h3, h4, h5, h6, h7, h8, h9, h10, h11⟩ :=
        clone_pass_spec layout c
      refine ⟨news, newsS, h1, h2, h3, ?_, fun habs => absurd rfl (habs layout)⟩
      intro e he
      have : Elm.tag e ∈ news.map Elm.tag := List.mem_map_of_mem Elm.tag he
      rw [h5] at this
      obtain ⟨q, _, hq⟩ := List.mem_map.mp this
      rw [← hq]
      rfl
  refine ⟨?_, hstep, ?_⟩
  · intro t c h
    rw [mkCollection] at h
    match h2 : unmarshalShapes t.children with
    | Except.error err => rw [h2] at h; simp [Except.map] at h
    | Except.ok shapes =>
      rw [h2] at h
      simp only [Except.map, Except.ok.injEq] at h
      rw [Paired, ← h]
      exact unmarshal_map_elmOf t.children shapes h2
  · intro c ops
    induction ops generalizing c with
    | nil => exact fun h => h
    | cons op ops ih =>
      intro h
      rw [runOps]
      refine ih (applyOp c op) ?_
      obtain ⟨newElms, newShapes, h1, h2, h3, h4, _⟩ := hstep c op
      rw [Paired, h2, h1, List.map_append, h3, qualifying, List.filter_append]
      rw [Paired] at h
      rw [qualifying] at h
      rw [h]
      congr 1
      symm
      rw [List.filter_eq_self]
      intro e he
      simp [h4 e he]

/-- C6: the unmarshal dispatch, one child at a time: the structural tags
are skipped and yield no shape; `p:sp` wraps as the autoshape `_Shape`;
`p:pic` as `_Picture`; `p:grpSp` as a recursive collection over its own
children; `p:graphicFrame` as `_Table` exactly when it carries a table
graphic and as the generic `_BaseShape` otherwise; `p:cxnSp` as the generic
wrapper; `p:contentPart` fails; and every remaining tag falls back to the
generic wrapper rather than an error. -/
theorem unmarshal_dispatch (e : Elm) (es : List Elm) :
    (isSkipTag e.tag = true → unmarshalShapes (e :: es) = unmarshalShapes es) ∧
    (e.tag = Tag.sp → unmarshalShapes (e :: es)
      = Except.map (fun r => Shape.shape e :: r) (unmarshalShapes es)) ∧
    (e.tag = Tag.pic → unmarshalShapes (e :: es)
      = Except.map (fun r => Shape.picture e :: r) (unmarshalShapes es)) ∧
    (e.tag = Tag.grpSp → unmarshalShapes (e :: es)
      = Except.bind (unmarshalShapes e.children) (fun sub =>
          Except.map (fun r => Shape.group e sub :: r) (unmarshalShapes es))) ∧
    (e.tag = Tag.graphicFrame → e.hasTable = true → unmarshalShapes (e :: es)
      = Except.map (fun r => Shape.table e :: r) (unmarshalShapes es)) ∧
    (e.tag = Tag.graphicFrame → e.hasTable = false → unmarshalShapes (e :: es)
      = Except.map (fun r => Shape.base e :: r) (unmarshalShapes es)) ∧
    (e.tag = Tag.cxnSp → unmarshalShapes (e :: es)
      = Except.map (fun r => Shape.base e :: r) (unmarshalShapes es)) ∧
    (e.tag = Tag.contentPart → unmarshalShapes (e :: es)
      = Except.error UnmarshalError.unsupportedShapeKind) ∧
    (isSkipTag e.tag = false → e.tag ≠ Tag.sp → e.tag ≠ Tag.pic → e.tag ≠ Tag.grpSp →
      e.tag ≠ Tag.graphicFrame → e.tag ≠ Tag.contentPart → unmarshalShapes (e :: es)
      = Except.map (fun r => Shape.base e :: r) (unmarshalShapes es)) := by
  match e with
  | Elm.mk t i n hb p cs =>
    refine ⟨?_, ?_, ?_, ?_, ?_, ?_, ?_, ?_, ?_⟩
    · intro h
      simp only [Elm.tag, isSkipTag, Bool.or_eq_true, decide_eq_true_eq] at h
      rcases h with (h | h) | h <;> subst h <;> rfl
    · intro h
      simp only [Elm.tag] at h
      subst h
      rfl
    · intro h
      simp only [Elm.tag] at h
      subst h
      rfl
    · intro h
      simp only [Elm.tag] at h
      subst h
      have h2 : unmarshalOne (Elm.mk Tag.grpSp i n hb p cs)
          = Except.map (fun sub => some (Shape.group (Elm.mk Tag.grpSp i n hb p cs) sub))
            (unmarshalShapes cs) := rfl
      rw [unmarshalShapes, h2]
      cases h6 : unmarshalShapes cs with
      | error err => simp [h6, Except.map, Except.bind, Elm.children]
      | ok sub => simp [h6, Except.map, Except.bind, Elm.children]
    · intro h h2
      simp only [Elm.tag] at h
      simp only [Elm.hasTable] at h2
      subst h
      subst h2
      rfl
    · intro h h2
      simp only [Elm.tag] at h
      simp only [Elm.hasTable] at h2
      subst h
      subst h2
      rfl
    · intro h
      simp only [Elm.tag] at h
      subst h
      rfl
    · intro h
      simp only [Elm.tag] at h
      subst h
      rfl
    · intro h0 h1 h2 h3 h4 h5
      simp only [Elm.tag] at h0 h1 h2 h3 h4 h5 ⊢
      cases t with
      | nvGrpSpPr => simp [isSkipTag] at h0
      | grpSpPr => simp [isSkipTag] at h0
      | extLst => simp [isSkipTag] at h0
      | sp => exact absurd rfl h1
      | pic => exact absurd rfl h2
      | grpSp => exact absurd rfl h3
      | graphicFrame => exact absurd rfl h4
      | cxnSp => rfl
      | contentPart => exact absurd rfl h5
      | cNvPr => rfl
      | unknown m => rfl

/-- C9 witness: the pairing established by a concrete construction, with the
hypothesis discharged by computation. -/
theorem shapes_tree_pairing_witness :
    Paired (Collection.mk cexTree
      [Shape.picture (Elm.mk Tag.pic 0 "" false none [cNvPrElm 2 "Picture 2"])]) :=
  shapes_tree_pairing.1 cexTree
    (Collection.mk cexTree
      [Shape.picture (Elm.mk Tag.pic 0 "" false none [cNvPrElm 2 "Picture 2"])]) rfl

/-! ### C7: the unmarshal failure condition -/

theorem except_map_error_iff {α β ε : Type} (f : α → β) (x : Except ε α) (err : ε) :
    Except.map f x = Except.error err ↔ x = Except.error err := by
  cases x <;> simp [Except.map]

theorem unmarshal_error_iff_aux : ∀ (n : Nat) (es : List Elm), sizeOf es < n →
    (unmarshalShapes es = Except.error UnmarshalError.unsupportedShapeKind ↔
      hasContentPart es = true) := by
  intro n
  induction n with
  | zero => intro es h; exact absurd h (Nat.not_lt_zero _)
  | succ n ih =>
    intro es hsize
    match es with
    | [] => simp [unmarshalShapes, hasContentPart]
    | Elm.mk t i nm hb p cs :: es2 =>
      simp only [List.cons.sizeOf_spec, Elm.mk.sizeOf_spec] at hsize
      have hszcs : sizeOf cs < n := by omega
      have hszes : sizeOf es2 < n := by omega
      cases t with
      | nvGrpSpPr =>
        rw [show unmarshalShapes (Elm.mk Tag.nvGrpSpPr i nm hb p cs :: es2)
            = unmarshalShapes es2 from rfl,
          show hasContentPart (Elm.mk Tag.nvGrpSpPr i nm hb p cs :: es2)
            = hasContentPart es2 from rfl]
        exact ih es2 hszes
      | grpSpPr =>
        rw [show unmarshalShapes (Elm.mk Tag.grpSpPr i nm hb p cs :: es2)
            = unmarshalShapes es2 from rfl,
          show hasContentPart (Elm.mk Tag.grpSpPr i nm hb p cs :: es2)
            = hasContentPart es2 from rfl]
        exact ih es2 hszes
      | extLst =>
        rw [show unmarshalShapes (Elm.mk Tag.extLst i nm hb p cs :: es2)
            = unmarshalShapes es2 from rfl,
          show hasContentPart (Elm.mk Tag.extLst i nm hb p cs :: es2)
            = hasContentPart es2 from rfl]
        exact ih es2 hszes
      | sp =>
        rw [show unmarshalShapes (Elm.mk Tag.sp i nm hb p cs :: es2)
            = Except.map (fun r => Shape.shape (Elm.mk Tag.sp i nm hb p cs) :: r)
              (unmarshalShapes es2) from rfl,
          show hasContentPart (Elm.mk Tag.sp i nm hb p cs :: es2)
            = hasContentPart es2 from rfl, except_map_error_iff]
        exact ih es2 hszes
      | pic =>
        rw [show unmarshalShapes (Elm.mk Tag.pic i nm hb p cs :: es2)
            = Except.map (fun r => Shape.picture (Elm.mk Tag.pic i nm hb p cs) :: r)
              (unmarshalShapes es2) from rfl,
          show hasContentPart (Elm.mk Tag.pic i nm hb p cs :: es2)
            = hasContentPart es2 from rfl, except_map_error_iff]
        exact ih es2 hszes
      | grpSp =>
        have h2 : unmarshalOne (Elm.mk Tag.grpSp i nm hb p cs)
            = Except.map (fun sub => some (Shape.group (Elm.mk Tag.grpSp i nm hb p cs) sub))
              (unmarshalShapes cs) := rfl
        have hhc : hasContentPart (Elm.mk Tag.grpSp i nm hb p cs :: es2)
            = (hasContentPart cs || hasContentPart es2) := by
          simp [hasContentPart, elmHasContentPart]
        cases h6 : unmarshalShapes cs with
        | error err =>
          cases err
          have hcs : hasContentPart cs = true := (ih cs hszcs).mp h6
          have hstep : unmarshalShapes (Elm.mk Tag.grpSp i nm hb p cs :: es2)
              = Except.error UnmarshalError.unsupportedShapeKind := by
            rw [unmarshalShapes, h2, h6]
            rfl
          rw [hstep, hhc, hcs]
          simp
        | ok sub =>
          have hcs : hasContentPart cs = false := by
            cases h7 : hasContentPart cs with
            | false => rfl
            | true =>
              have := (ih cs hszcs).mpr h7
              rw [h6] at this
              exact Except.noConfusion this
          have hstep : unmarshalShapes (Elm.mk Tag.grpSp i nm hb p cs :: es2)
              = Except.map
                (fun r => Shape.group (Elm.mk Tag.grpSp i nm hb p cs) sub :: r)
                (unmarshalShapes es2) := by
            rw [unmarshalShapes, h2, h6]
            rfl
          rw [hstep, hhc, hcs, except_map_error_iff]
          simpa using ih es2 hszes
      | graphicFrame =>
        cases hb with
        | true =>
          rw [show unmarshalShapes (Elm.mk Tag.graphicFrame i nm true p cs :: es2)
              = Except.map
                (fun r => Shape.table (Elm.mk Tag.graphicFrame i nm true p cs) :: r)
                (unmarshalShapes es2) from rfl,
            show hasContentPart (Elm.mk Tag.graphicFrame i nm true p cs :: es2)
              = hasContentPart es2 from rfl, except_map_error_iff]
          exact ih es2 hszes
        | false =>
          rw [show unmarshalShapes (Elm.mk Tag.graphicFrame i nm false p cs :: es2)
              = Except.map
                (fun r => Shape.base (Elm.mk Tag.graphicFrame i nm false p cs) :: r)
                (unmarshalShapes es2) from rfl,
            show hasContentPart (Elm.mk Tag.graphicFrame i nm false p cs :: es2)
              = hasContentPart es2 from rfl, except_map_error_iff]
          exact ih es2 hszes
      | cxnSp =>
        rw [show unmarshalShapes (Elm.mk Tag.cxnSp i nm hb p cs :: es2)
            = Except.map (fun r => Shape.base (Elm.mk Tag.cxnSp i nm hb p cs) :: r)
              (unmarshalShapes es2) from rfl,
          show hasContentPart (Elm.mk Tag.cxnSp i nm hb p cs :: es2)
            = hasContentPart es2 from rfl, except_map_error_iff]
        exact ih es2 hszes
      | contentPart =>
        rw [show unmarshalShapes (Elm.mk Tag.contentPart i nm hb p cs :: es2)
            = Except.error UnmarshalError.unsupportedShapeKind from rfl,
          show hasContentPart (Elm.mk Tag.contentPart i nm hb p cs :: es2) = true from rfl]
        simp
      | cNvPr =>
        rw [show unmarshalShapes (Elm.mk Tag.cNvPr i nm hb p cs :: es2)
            = Except.map (fun r => Shape.base (Elm.mk Tag.cNvPr i nm hb p cs) :: r)
              (unmarshalShapes es2) from rfl,
          show hasContentPart (Elm.mk Tag.cNvPr i nm hb p cs :: es2)
            = hasContentPart es2 from rfl, except_map_error_iff]
        exact ih es2 hszes
      | unknown m =>
        rw [show unmarshalShapes (Elm.mk (Tag.unknown m) i nm hb p cs :: es2)
            = Except.map (fun r => Shape.base (Elm.mk (Tag.unknown m) i nm hb p cs) :: r)
              (unmarshalShapes es2) from rfl,
          show hasContentPart (Elm.mk (Tag.unknown m) i nm hb p cs :: es2)
            = hasContentPart es2 from rfl, except_map_error_iff]
        exact ih es2 hszes

/-- C7 counterexample: on a tree whose only shape child is a group shape
containing a content-part element, unmarshal fails although no child of the
tree is a content-part element (the failing child tag is the group-shape
one); the claim's iff over direct children, and its "no other child tag
causes unmarshal to fail", do not hold as stated. -/
theorem unmarshal_error_without_direct_contentPart :
    mkCollection cexNestedCP = Except.error UnmarshalError.unsupportedShapeKind ∧
      ∀ e ∈ cexNestedCP.children, e.tag ≠ Tag.contentPart :=
  ⟨rfl, by decide⟩

/-- C7 (amended): unmarshaling a tree node fails with UnsupportedShapeKind
if and only if the recursive unmarshal reaches a content-part element (one
of the node's children is one, or, recursively, a group-shape child contains
one); on that failure no collection value exists, and no other tag produces
an error of its own. -/
theorem unmarshal_fails_iff_contentPart (t : Elm) :
    (mkCollection t = Except.error UnmarshalError.unsupportedShapeKind ↔
      hasContentPart t.children = true) ∧
    (hasContentPart t.children = true → ¬ ∃ c, mkCollection t = Except.ok c) := by
  have hiff : mkCollection t = Except.error UnmarshalError.unsupportedShapeKind ↔
      hasContentPart t.children = true := by
    rw [mkCollection, except_map_error_iff]
    exact unmarshal_error_iff_aux (sizeOf t.children + 1) t.children (Nat.lt_succ_self _)
  refine ⟨hiff, fun hcp ⟨c, hc⟩ => ?_⟩
  rw [hiff.mpr hcp] at hc
  exact Except.noConfusion hc

/-! ### C8: placeholder extraction and ordering -/

instance : IsTotal Shape (fun a b => Shape.phIdx a ≤ Shape.phIdx b) :=
  ⟨fun _ _ => Nat.le_total _ _⟩

instance : IsTrans Shape (fun a b => Shape.phIdx a ≤ Shape.phIdx b) :=
  ⟨fun _ _ _ hab hbc => Nat.le_trans hab hbc⟩

theorem orderedInsert_filter_phIdx (v : Nat) (a : Shape) :
    ∀ l : List Shape,
      List.filter (fun x => decide (Shape.phIdx x = v))
        (List.orderedInsert (fun x y => Shape.phIdx x ≤ Shape.phIdx y) a l)
      = if Shape.phIdx a = v then
          a :: List.filter (fun x => decide (Shape.phIdx x = v)) l
        else List.filter (fun x => decide (Shape.phIdx x = v)) l := by
  intro l
  induction l with
  | nil =>
    by_cases hv : Shape.phIdx a = v <;> simp [List.orderedInsert, List.filter, hv]
  | cons b l ih =>
    by_cases hr : Shape.phIdx a ≤ Shape.phIdx b
    · rw [List.orderedInsert, if_pos hr]
      by_cases hv : Shape.phIdx a = v <;> simp [List.filter_cons, hv]
    · rw [List.orderedInsert, if_neg hr]
      by_cases hv : Shape.phIdx a = v
      · have hbv : ¬ Shape.phIdx b = v := by omega
        simp [List.filter_cons, hbv, ih, hv]
      · simp [List.filter_cons, ih, hv]

theorem insertionSort_filter_phIdx (v : Nat) :
    ∀ l : List Shape,
      List.filter (fun x => decide (Shape.phIdx x = v))
        (List.insertionSort (fun x y => Shape.phIdx x ≤ Shape.phIdx y) l)
      = List.filter (fun x => decide (Shape.phIdx x = v)) l := by
  intro l
  induction l with
  | nil => rfl
  | cons a l ih =>
    rw [List.insertionSort, orderedInsert_filter_phIdx, List.filter_cons]
    by_cases hv : Shape.phIdx a = v <;> simp [hv, ih]

/-- C8: `placeholders` is exactly the subset of the collection's members
with `is_placeholder`, sorted by ascending `idx`, and the sort is stable:
for every idx value, the members carrying it appear in their pre-sort
(document) order, i.e. filtering placeholders at that idx commutes with the
sort.  (`placeholders_idx312_example` below instantiates the spec's idx
`{3,1,2}` example.) -/
theorem placeholders_spec (c : Collection) :
    List.Sorted (fun a b => Shape.phIdx a ≤ Shape.phIdx b) c.placeholders ∧
    c.placeholders.Perm (c.shapes.filter Shape.isPlaceholder) ∧
    (∀ s ∈ c.placeholders, Shape.isPlaceholder s = true) ∧
    (∀ s ∈ c.shapes, Shape.isPlaceholder s = true → s ∈ c.placeholders) ∧
    (∀ v : Nat, List.filter (fun s => decide (Shape.phIdx s = v)) c.placeholders
      = List.filter (fun s => decide (Shape.phIdx s = v))
          (c.shapes.filter Shape.isPlaceholder)) := by
  have hperm : c.placeholders.Perm (c.shapes.filter Shape.isPlaceholder) :=
    List.perm_insertionSort _ _
  refine ⟨List.sorted_insertionSort _ _, hperm, ?_, ?_, fun v => insertionSort_filter_phIdx v _⟩
  · intro s hs
    have := hperm.mem_iff.mp hs
    exact (List.mem_filter.mp this).2
  · intro s hs hph
    exact hperm.mem_iff.mpr (List.mem_filter.mpr ⟨hs, hph⟩)

/-- The spec's ordering example: placeholders inserted with idx 3, 1, 2 come
back ordered 1, 2, 3. -/
theorem placeholders_idx312_example :
    (Collection.placeholders collIdx312).map Shape.phIdx = [1, 2, 3] := rfl

end PptxShapes
